import Mathlib

/-!
Verification of the ippon release orchestrator core: manifest
reconciliation (updateK8sDeployment / getKustomiztion), the docker
digest phase (getDockerImageDigest / buildAndPublishDockerService),
the native publish phase (buildAndPublishService /
buildAndPublishGoService) and the bounded-concurrency scheduler
(registryCommand with errgroup and a buffered result channel).
The Go sources are embedded shallowly: machine state is passed
explicitly, Go (value, error) returns become pairs with an
Option String error component, and the concurrent scheduler is a
small-step transition system.
-/

namespace Ippon

/-- One entry of the persisted manifest: Image with yaml fields
old_image / new_image. -/
structure Image where
  OldName : String
  NewName : String
deriving DecidableEq, Repr

/-- Body of the reconcile loop of updateK8sDeployment: look for the
first manifest entry whose OldName equals the record key
(lo.FindIndexOf); if absent, append the record; if present at idx,
overwrite that entry's NewName in place. -/
def reconcileRecord (currentImages : List Image) (image : Image) : List Image :=
  match List.findIdx? (fun i => i.OldName == image.OldName) currentImages with
  | none => currentImages ++ [image]
  | some idx => List.modify (fun i => { i with NewName := image.NewName }) idx currentImages

/-- The reconcile loop of updateK8sDeployment: fold the built images
(records) over the manifest loaded from disk. -/
def reconcile (currentImages : List Image) (builtImages : List Image) : List Image :=
  builtImages.foldl reconcileRecord currentImages

/-- Structural recursion form of reconcileRecord, used for proofs. -/
def updEntry : List Image → Image → List Image
  | [], image => [image]
  | i :: rest, image =>
    if i.OldName = image.OldName then { i with NewName := image.NewName } :: rest
    else i :: updEntry rest image

theorem reconcileRecord_eq_updEntry (current : List Image) (image : Image) :
    reconcileRecord current image = updEntry current image := by
  induction current with
  | nil => rfl
  | cons i rest ih =>
    unfold reconcileRecord updEntry
    rw [List.findIdx?_cons]
    by_cases h : i.OldName = image.OldName
    · simp [h, List.modify]
    · have hb : (i.OldName == image.OldName) = false := by
        simp [h]
      rw [hb]
      simp only [Bool.false_eq_true, if_false]
      rw [List.findIdx?_succ]
      cases hfi : List.findIdx? (fun j => j.OldName == image.OldName) rest with
      | none =>
        have ih2 : updEntry rest image = rest ++ [image] := by
          rw [← ih]; unfold reconcileRecord; rw [hfi]
        simp [h, ih2]
      | some idx =>
        have ih2 : updEntry rest image =
            List.modify (fun i => { i with NewName := image.NewName }) idx rest := by
          rw [← ih]; unfold reconcileRecord; rw [hfi]
        simp [h, ih2, List.modify]

theorem reconcile_cons (current : List Image) (r : Image) (rs : List Image) :
    reconcile current (r :: rs) = reconcile (reconcileRecord current r) rs := rfl

theorem reconcile_nil (current : List Image) : reconcile current [] = current := rfl

/-- Whether a key (OldName) is present in the manifest. -/
def containsKey : List Image → String → Bool
  | [], _ => false
  | i :: rest, k => i.OldName = k || containsKey rest k

/-- NewName of the first manifest entry carrying a given key. -/
def lookupKey : List Image → String → Option String
  | [], _ => none
  | i :: rest, k => if i.OldName = k then some i.NewName else lookupKey rest k

theorem updEntry_containsKey_self (current : List Image) (r : Image) :
    containsKey (updEntry current r) r.OldName = true := by
  induction current with
  | nil => simp [updEntry, containsKey]
  | cons i rest ih =>
    unfold updEntry
    by_cases h : i.OldName = r.OldName
    · simp [h, containsKey]
    · simp [h, containsKey, ih]

theorem updEntry_containsKey_mono (current : List Image) (r : Image) (k : String)
    (h : containsKey current k = true) :
    containsKey (updEntry current r) k = true := by
  induction current with
  | nil => simp [containsKey] at h
  | cons i rest ih =>
    unfold containsKey at h
    rw [Bool.or_eq_true] at h
    unfold updEntry
    by_cases hik : i.OldName = r.OldName
    · simp only [hik, if_true]
      unfold containsKey
      rcases h with h | h
      · rw [← hik]
        simp [h]
      · simp [h]
    · simp only [hik, if_false]
      unfold containsKey
      rcases h with h | h
      · simp [h]
      · simp [ih h]

theorem lookupKey_updEntry_self (current : List Image) (r : Image) :
    lookupKey (updEntry current r) r.OldName = some r.NewName := by
  induction current with
  | nil => simp [updEntry, lookupKey]
  | cons i rest ih =>
    unfold updEntry
    by_cases h : i.OldName = r.OldName
    · simp [h, lookupKey]
    · simp [h, lookupKey, ih]

theorem lookupKey_updEntry_other (current : List Image) (r : Image) (k : String)
    (h : r.OldName ≠ k) :
    lookupKey (updEntry current r) k = lookupKey current k := by
  induction current with
  | nil => simp [updEntry, lookupKey, h]
  | cons i rest ih =>
    unfold updEntry
    by_cases hik : i.OldName = r.OldName
    · have hnk : i.OldName ≠ k := by rw [hik]; exact h
      simp only [hik, if_true]
      simp [lookupKey, hnk, h]
    · have hkr : k ≠ r.OldName := fun hc => h hc.symm
      by_cases hk : i.OldName = k
      · simp [updEntry, hik, lookupKey, hk, hkr]
      · simp [hik, lookupKey, hk, ih]

theorem updEntry_of_lookup_self (current : List Image) (k v : String)
    (h : lookupKey current k = some v) :
    updEntry current ⟨k, v⟩ = current := by
  induction current with
  | nil => simp [lookupKey] at h
  | cons i rest ih =>
    unfold lookupKey at h
    unfold updEntry
    by_cases hik : i.OldName = k
    · simp only [hik, if_true] at h ⊢
      have hv : i.NewName = v := by
        simpa using h
      cases i
      simp_all
    · simp only [hik, if_false] at h ⊢
      rw [ih h]

/-- Overwriting twice with the same key collapses to the last write. -/
theorem updEntry_overwrite (current : List Image) (r s : Image)
    (h : s.OldName = r.OldName) :
    updEntry (updEntry current r) s = updEntry current s := by
  obtain ⟨ro, rn⟩ := r
  obtain ⟨so, sn⟩ := s
  simp only [] at h
  subst h
  induction current with
  | nil => simp [updEntry]
  | cons i rest ih =>
    by_cases hik : i.OldName = so
    · simp [updEntry, hik]
    · simp [updEntry, hik, ih]

/-- Overwrites for distinct keys commute as long as the first key is
already present (so no append-order difference can arise). -/
theorem updEntry_comm (current : List Image) (r s : Image)
    (hk : containsKey current r.OldName = true)
    (h : s.OldName ≠ r.OldName) :
    updEntry (updEntry current r) s = updEntry (updEntry current s) r := by
  obtain ⟨ro, rn⟩ := r
  obtain ⟨so, sn⟩ := s
  simp only [] at h hk
  induction current with
  | nil => simp [containsKey] at hk
  | cons i rest ih =>
    have hrs : ¬ ro = so := fun hc => h hc.symm
    by_cases hir : i.OldName = ro
    · have his : i.OldName ≠ so := by rw [hir]; exact fun hc => h hc.symm
      simp [updEntry, hir, his, h, hrs]
    · by_cases his : i.OldName = so
      · simp [updEntry, hir, his, h, hrs]
      · have hk2 : containsKey rest ro = true := by
          unfold containsKey at hk
          rw [Bool.or_eq_true] at hk
          rcases hk with hk | hk
          · exact absurd (by simpa using hk) hir
          · exact hk
        simp [updEntry, hir, his, ih hk2]

/-- reconcile computed with the structural updEntry. -/
def reconcileU (current : List Image) (builtImages : List Image) : List Image :=
  builtImages.foldl updEntry current

theorem reconcile_eq_reconcileU (current : List Image) (R : List Image) :
    reconcile current R = reconcileU current R := by
  induction R generalizing current with
  | nil => rfl
  | cons r rs ih =>
    show reconcile (reconcileRecord current r) rs = reconcileU (updEntry current r) rs
    rw [reconcileRecord_eq_updEntry]
    exact ih (updEntry current r)

theorem reconcileU_containsKey_mono (M : List Image) (R : List Image) (k : String)
    (h : containsKey M k = true) :
    containsKey (reconcileU M R) k = true := by
  induction R generalizing M with
  | nil => exact h
  | cons r rs ih => exact ih (updEntry M r) (updEntry_containsKey_mono M r k h)

theorem lookupKey_reconcileU_of_no_record (M : List Image) (R : List Image) (k : String)
    (h : ∀ s ∈ R, s.OldName ≠ k) :
    lookupKey (reconcileU M R) k = lookupKey M k := by
  induction R generalizing M with
  | nil => rfl
  | cons r rs ih =>
    have hr : r.OldName ≠ k := h r (List.mem_cons_self r rs)
    have hrest : ∀ s ∈ rs, s.OldName ≠ k := fun s hs => h s (List.mem_cons_of_mem r hs)
    show lookupKey (reconcileU (updEntry M r) rs) k = lookupKey M k
    rw [ih (updEntry M r) hrest, lookupKey_updEntry_other M r k hr]

/-- Replaying a record whose key is already present, before a record
set that writes that key again, changes nothing. -/
theorem reconcileU_replay (R : List Image) (M : List Image) (r : Image)
    (hk : containsKey M r.OldName = true)
    (hex : ∃ s ∈ R, s.OldName = r.OldName) :
    reconcileU (updEntry M r) R = reconcileU M R := by
  induction R generalizing M with
  | nil => obtain ⟨s, hs, _⟩ := hex; exact absurd hs (List.not_mem_nil s)
  | cons s rs ih =>
    by_cases hsr : s.OldName = r.OldName
    · show reconcileU (updEntry (updEntry M r) s) rs = reconcileU (updEntry M s) rs
      rw [updEntry_overwrite M r s hsr]
    · obtain ⟨t, ht, htk⟩ := hex
      rcases List.mem_cons.mp ht with rfl | ht2
      · exact absurd htk hsr
      · show reconcileU (updEntry (updEntry M r) s) rs = reconcileU (updEntry M s) rs
        rw [updEntry_comm M r s hk hsr]
        exact ih (updEntry M s) (updEntry_containsKey_mono M s r.OldName hk) ⟨t, ht2, htk⟩

theorem reconcileU_idem (R : List Image) (M : List Image) :
    reconcileU (reconcileU M R) R = reconcileU M R := by
  induction R generalizing M with
  | nil => rfl
  | cons r rs ih =>
    show reconcileU (updEntry (reconcileU (updEntry M r) rs) r) rs =
      reconcileU (updEntry M r) rs
    have hkM1 : containsKey (updEntry M r) r.OldName = true :=
      updEntry_containsKey_self M r
    have hkN : containsKey (reconcileU (updEntry M r) rs) r.OldName = true :=
      reconcileU_containsKey_mono (updEntry M r) rs r.OldName hkM1
    by_cases hex : ∃ s ∈ rs, s.OldName = r.OldName
    · rw [reconcileU_replay rs (reconcileU (updEntry M r) rs) r hkN hex]
      exact ih (updEntry M r)
    · push_neg at hex
      have hlook : lookupKey (reconcileU (updEntry M r) rs) r.OldName = some r.NewName := by
        rw [lookupKey_reconcileU_of_no_record (updEntry M r) rs r.OldName hex]
        exact lookupKey_updEntry_self M r
      have hfix : updEntry (reconcileU (updEntry M r) rs) r = reconcileU (updEntry M r) rs := by
        have := updEntry_of_lookup_self (reconcileU (updEntry M r) rs)
          r.OldName r.NewName hlook
        simpa using this
      rw [hfix]
      exact ih (updEntry M r)

/-- C2: reconciling the same record set twice equals reconciling it
once. -/
theorem reconcile_reapply_idempotent (M R : List Image) :
    reconcile (reconcile M R) R = reconcile M R := by
  rw [reconcile_eq_reconcileU (reconcile M R) R, reconcile_eq_reconcileU M R]
  exact reconcileU_idem R M

/-- Scenario C manifest: an existing entry for svc/a flanked by two
unrelated entries. -/
def svcManifest : List Image :=
  [⟨"svc/x", "repo/x@sha256:000"⟩, ⟨"svc/a", "repo/a@sha256:111"⟩,
   ⟨"svc/y", "repo/y@sha256:333"⟩]

/-- Scenario C incoming record carrying the new digest for svc/a. -/
def svcRecord : Image := ⟨"svc/a", "repo/a@sha256:222"⟩

/-- C1: reconciling a record whose oldReference is already a key
overwrites that entry's newReference in place (same length, same
position, every other position untouched); a record with a fresh key
is appended at the end; in particular the svc/a scenario yields
exactly one entry for svc/a, carrying the new reference, at its
original position. -/
theorem reconcile_overwrite_in_place_or_append :
    (∀ (M : List Image) (r : Image) (idx : Nat),
      List.findIdx? (fun i => i.OldName == r.OldName) M = some idx →
        (reconcileRecord M r).length = M.length ∧
        (∀ e, M[idx]? = some e →
          e.OldName = r.OldName ∧
          (reconcileRecord M r)[idx]? =
            some { OldName := e.OldName, NewName := r.NewName }) ∧
        (∀ j, j ≠ idx → (reconcileRecord M r)[j]? = M[j]?)) ∧
    (∀ (M : List Image) (r : Image),
      List.findIdx? (fun i => i.OldName == r.OldName) M = none →
        reconcileRecord M r = M ++ [r]) ∧
    (reconcile svcManifest [svcRecord] =
      [⟨"svc/x", "repo/x@sha256:000"⟩, ⟨"svc/a", "repo/a@sha256:222"⟩,
       ⟨"svc/y", "repo/y@sha256:333"⟩] ∧
     List.countP (fun i => i.OldName == ("svc/a" : String))
       (reconcile svcManifest [svcRecord]) = 1) := by
  refine ⟨?_, ?_, by decide, by decide⟩
  · intro M r idx hfi
    have hlt : idx < M.length ∧ List.findIdx (fun i => i.OldName == r.OldName) M = idx :=
      List.findIdx?_eq_some_iff_findIdx_eq.mp hfi
    have hrr : reconcileRecord M r =
        List.modify (fun i => { i with NewName := r.NewName }) idx M := by
      unfold reconcileRecord; rw [hfi]
    refine ⟨by rw [hrr]; exact List.length_modify _ _ _, ?_, ?_⟩
    · intro e he
      have hw : List.findIdx (fun i => i.OldName == r.OldName) M < M.length := by
        rw [hlt.2]; exact hlt.1
      have hp : (M[List.findIdx (fun i => i.OldName == r.OldName) M].OldName
          == r.OldName) = true :=
        @List.findIdx_getElem _ (fun i => i.OldName == r.OldName) M hw
      have hq : M[List.findIdx (fun i => i.OldName == r.OldName) M]? = some e := by
        rw [hlt.2]; exact he
      have hsome : M[List.findIdx (fun i => i.OldName == r.OldName) M]? =
          some (M[List.findIdx (fun i => i.OldName == r.OldName) M]) :=
        List.getElem?_eq_getElem hw
      have hee : M[List.findIdx (fun i => i.OldName == r.OldName) M] = e := by
        rw [hsome] at hq; exact Option.some.inj hq
      rw [hee] at hp
      refine ⟨by simpa using hp, ?_⟩
      rw [hrr]
      simp [List.getElem?_modify, he]
    · intro j hj
      rw [hrr]
      simp [List.getElem?_modify, Ne.symm hj]
  · intro M r h
    unfold reconcileRecord; rw [h]

/-- Witness for C1 at the svc/a scenario: the entry is overwritten in
place at index 1 and index 0 is untouched. -/
theorem reconcile_overwrite_in_place_or_append_witness :
    (reconcileRecord svcManifest svcRecord).length = svcManifest.length ∧
    (reconcileRecord svcManifest svcRecord)[1]? =
      some ⟨"svc/a", "repo/a@sha256:222"⟩ ∧
    (reconcileRecord svcManifest svcRecord)[0]? = svcManifest[0]? := by
  obtain ⟨hsome, _, _⟩ := reconcile_overwrite_in_place_or_append
  obtain ⟨hl, he, hother⟩ := hsome svcManifest svcRecord 1 (by decide)
  refine ⟨hl, ?_, hother 0 (by decide)⟩
  have h2 := (he ⟨"svc/a", "repo/a@sha256:111"⟩ (by decide)).2
  simpa using h2

/-- State of one path in the modelled file system: the file may be
missing (os.IsNotExist), unreadable for another reason, unparseable
yaml, or a parsed Images document whose images slice may itself be
nil. -/
inductive FsFile where
  | missing
  | unreadable (e : String)
  | malformed (e : String)
  | doc (images : Option (List Image))
deriving DecidableEq, Repr

/-- The modelled file system maps paths to file states. -/
def FileSys : Type := String → FsFile

/-- getKustomiztion: read the manifest file; a missing file yields a
nil Images pointer with a nil error; other read errors and unmarshal
errors are returned; otherwise the parsed document. The outer Option
is the *Images pointer, the inner one the Images.Images slice. -/
def getKustomiztion (f : FsFile) : Except String (Option (Option (List Image))) :=
  match f with
  | .missing => .ok none
  | .unreadable e => .error e
  | .malformed e => .error e
  | .doc images => .ok (some images)

/-- The currentImages computation of updateK8sDeployment: start from
an empty slice and take the loaded one only when both the document
pointer and its images slice are non-nil. -/
def loadCurrentImages (f : FsFile) : Except String (List Image) :=
  match getKustomiztion f with
  | .error e => .error e
  | .ok images =>
    .ok (match images with
         | some (some l) => l
         | _ => [])

/-- path.Join(".ippon", namespace+".yaml") for a plain namespace. -/
def manifestFilePath (ns : String) : String :=
  ".ippon/" ++ ns ++ ".yaml"

/-- File-system effects performed by the manifest store. -/
inductive FsEvent where
  | readFile (path : String)
  | writeFile (path : String)
deriving DecidableEq, Repr

/-- updateK8sDeployment: drain the channel into builtImages, load the
manifest at .ippon/ns.yaml, reconcile the built images into it and
write the document back to the same path. -/
def updateK8sDeployment (ns : String) (builtImages : List Image)
    (fs : FileSys) : FileSys × List FsEvent × Option String :=
  let filePath := manifestFilePath ns
  match loadCurrentImages (fs filePath) with
  | .error e => (fs, [.readFile filePath], some e)
  | .ok currentImages =>
    let result := reconcile currentImages builtImages
    (fun p => if p = filePath then .doc (some result) else fs p,
     [.readFile filePath, .writeFile filePath], none)

/-- Tail of registryCommand after the build pool has finished and the
channel is closed: an empty namespace returns nil immediately,
otherwise the manifest store runs. -/
def registryCommandFinish (ns : String) (builtImages : List Image)
    (fs : FileSys) : FileSys × List FsEvent × Option String :=
  if ns = "" then (fs, [], none)
  else updateK8sDeployment ns builtImages fs

/-- C3: loading the manifest from a path holding no file succeeds and
reconciliation starts from the empty entry list, with no error. -/
theorem load_missing_manifest_is_empty (fs : FileSys) (p : String)
    (h : fs p = FsFile.missing) :
    getKustomiztion (fs p) = Except.ok none ∧
    loadCurrentImages (fs p) = Except.ok [] := by
  rw [h]
  exact ⟨rfl, rfl⟩

/-- Witness for C3: a file system with nothing persisted yet. -/
theorem load_missing_manifest_is_empty_witness :
    getKustomiztion ((fun _ => FsFile.missing) ".ippon/dev.yaml") = Except.ok none ∧
    loadCurrentImages ((fun _ => FsFile.missing) ".ippon/dev.yaml") = Except.ok [] :=
  load_missing_manifest_is_empty (fun _ => FsFile.missing) ".ippon/dev.yaml" rfl

/-- C8: with an empty namespace flag the run finishes right after the
build phase: the file system is untouched, no manifest read or write
happens, and no error is returned. -/
theorem empty_namespace_skips_manifest_store (ns : String) (records : List Image)
    (fs : FileSys) (h : ns = "") :
    (registryCommandFinish ns records fs).1 = fs ∧
    (registryCommandFinish ns records fs).2.1 = [] ∧
    (registryCommandFinish ns records fs).2.2 = none := by
  subst h
  exact ⟨rfl, rfl, rfl⟩

/-- Witness for C8: a concrete run with one record and a non-trivial
persisted manifest, left untouched. -/
theorem empty_namespace_skips_manifest_store_witness :
    (registryCommandFinish "" [⟨"svc/a", "repo/a@sha256:222"⟩]
      (fun _ => FsFile.doc (some svcManifest))).1 =
      (fun _ => FsFile.doc (some svcManifest)) ∧
    (registryCommandFinish "" [⟨"svc/a", "repo/a@sha256:222"⟩]
      (fun _ => FsFile.doc (some svcManifest))).2.1 = [] ∧
    (registryCommandFinish "" [⟨"svc/a", "repo/a@sha256:222"⟩]
      (fun _ => FsFile.doc (some svcManifest))).2.2 = none :=
  empty_namespace_skips_manifest_store "" [⟨"svc/a", "repo/a@sha256:222"⟩]
    (fun _ => FsFile.doc (some svcManifest)) rfl

/-- pkg/errors Wrap: wrapping a nil error returns nil; wrapping a
non-nil error prepends the message. -/
def errorsWrap (err : Option String) (msg : String) : Option String :=
  match err with
  | none => none
  | some e => some (msg ++ ": " ++ e)

/-- One entry of the docker manifest inspect response (dockerManifest
with its Descriptor.Digest field). -/
structure DockerManifest where
  descriptorDigest : String
deriving DecidableEq, Repr

/-- Abstracted outcome of the docker manifest inspect subprocess
followed by json.Unmarshal into a descriptor list: the subprocess may
fail, and the unmarshal yields a list plus a possible error. -/
structure InspectOutcome where
  cmdErr : Option String
  manifests : List DockerManifest
  unmarshalErr : Option String
deriving DecidableEq, Repr

/-- The ECR registry handle: URL and GetRepositoryURL as in
registry/ecr.go. -/
structure ECR where
  accountId : String
  region : String
deriving DecidableEq, Repr

def ECR.URL (e : ECR) : String :=
  e.accountId ++ ".dkr.ecr." ++ e.region ++ ".amazonaws.com"

def ECR.GetRepositoryURL (e : ECR) (name : String) : String :=
  e.URL ++ "/" ++ name

/-- getDockerImageDigest: on subprocess failure wrap that error; when
the unmarshal fails or the descriptor list is empty, return the
json.Unmarshal error wrapped (so a nil unmarshal error stays nil);
otherwise the first descriptor's digest. The Go pair (string, error)
is kept as a pair with an Option String error. -/
def getDockerImageDigest (repoName tag : String) (o : InspectOutcome) :
    String × Option String :=
  match o.cmdErr with
  | some e => ("", errorsWrap (some e) "get docker image digest")
  | none =>
    if o.unmarshalErr.isSome || o.manifests.length == 0 then
      ("", errorsWrap o.unmarshalErr "unmarshal docker manifest")
    else
      ((o.manifests.headD ⟨""⟩).descriptorDigest, none)

/-- Result of one build-publish task body, with Go panics made
explicit. -/
inductive TaskResult where
  | ok (image : Image)
  | err (e : String)
  | panicked (msg : String)
deriving DecidableEq, Repr

/-- The index-out-of-range panic message of tags[0] on an empty
slice. -/
def indexPanicMsg : String := "runtime error: index out of range [0] with length 0"

/-- The repoName computation at the top of
buildAndPublishDockerService: the namespace is prepended when
non-empty. -/
def dockerRepoName (ecr : ECR) (serviceName ns : String) : String :=
  if ns ≠ "" then ecr.GetRepositoryURL (ns ++ "/" ++ serviceName)
  else ecr.GetRepositoryURL serviceName

/-- buildAndPublishDockerService: run the docker build (abstracted by
buildErr), then query the manifest of the first tag for the digest
and assemble the renaming record. Evaluating tags[0] on an empty tag
slice panics before the digest query runs. -/
def buildAndPublishDockerService (ecr : ECR) (serviceName ns : String)
    (tags : List String) (buildErr : Option String) (inspect : InspectOutcome) :
    TaskResult :=
  match buildErr with
  | some e => .err ("build docker image: " ++ e)
  | none =>
    match tags with
    | [] => .panicked indexPanicMsg
    | tag0 :: _ =>
      match getDockerImageDigest (dockerRepoName ecr serviceName ns) tag0 inspect with
      | (_, some e) => .err ("get docker image digest: " ++ e)
      | (digest, none) =>
        .ok ⟨"registry.lema.ai/" ++ serviceName,
             dockerRepoName ecr serviceName ns ++ "@" ++ digest⟩

/-- GetTags of a service config: the per-service tags when the slice
is non-nil, otherwise the global viper tags. -/
def GetTags (serviceTags : Option (List String)) (viperTags : List String) :
    List String :=
  match serviceTags with
  | some ts => ts
  | none => viperTags

/-- C4 evaluation: a well-formed manifest-inspection response with
zero descriptors makes the wrapped error nil (errors.Wrap of a nil
unmarshal error), so getDockerImageDigest returns an empty digest
with no error and the docker task succeeds, producing a newReference
that ends in a bare separator instead of failing with a
digest-resolution error. -/
theorem zero_descriptors_task_succeeds_with_empty_digest :
    getDockerImageDigest
        "111122223333.dkr.ecr.us-east-1.amazonaws.com/dev/svc-a" "latest"
        ⟨none, [], none⟩ = ("", none) ∧
    buildAndPublishDockerService ⟨"111122223333", "us-east-1"⟩ "svc-a" "dev"
        ["latest"] none ⟨none, [], none⟩ =
      TaskResult.ok ⟨"registry.lema.ai/svc-a",
        "111122223333.dkr.ecr.us-east-1.amazonaws.com/dev/svc-a@"⟩ :=
  ⟨rfl, rfl⟩

/-- C10: an empty effective tag list (possible when the service has no
tags and the global tag list is empty) makes the docker task panic on
the tags[0] index before any digest-resolution error can arise; with
a non-empty tag list the index access never panics. -/
theorem docker_empty_tags_index_out_of_bounds :
    GetTags none [] = [] ∧
    (∀ (ecr : ECR) (serviceName ns : String) (inspect : InspectOutcome),
      buildAndPublishDockerService ecr serviceName ns [] none inspect =
        TaskResult.panicked indexPanicMsg) ∧
    (∀ (ecr : ECR) (serviceName ns : String) (tags : List String)
       (buildErr : Option String) (inspect : InspectOutcome),
      tags ≠ [] →
      ∀ msg, buildAndPublishDockerService ecr serviceName ns tags buildErr inspect ≠
        TaskResult.panicked msg) := by
  refine ⟨rfl, fun _ _ _ _ => rfl, ?_⟩
  intro ecr serviceName ns tags buildErr inspect hne msg
  unfold buildAndPublishDockerService
  cases buildErr with
  | some e => simp
  | none =>
    cases tags with
    | nil => exact absurd rfl hne
    | cons tag0 rest =>
      cases hdig : getDockerImageDigest (dockerRepoName ecr serviceName ns) tag0 inspect with
      | mk d e =>
        cases e <;> simp [hdig]

/-- Witness for C10: with the default-empty tag configuration the
docker task panics, and with one tag it does not panic. -/
theorem docker_empty_tags_index_out_of_bounds_witness :
    GetTags none [] = [] ∧
    buildAndPublishDockerService ⟨"111122223333", "us-east-1"⟩ "svc-a" "dev"
        (GetTags none []) none ⟨none, [], none⟩ =
      TaskResult.panicked indexPanicMsg ∧
    buildAndPublishDockerService ⟨"111122223333", "us-east-1"⟩ "svc-a" "dev"
        ["latest"] none ⟨none, [], none⟩ ≠
      TaskResult.panicked indexPanicMsg := by
  obtain ⟨h1, h2, h3⟩ := docker_empty_tags_index_out_of_bounds
  exact ⟨h1, h2 ⟨"111122223333", "us-east-1"⟩ "svc-a" "dev" ⟨none, [], none⟩,
    h3 ⟨"111122223333", "us-east-1"⟩ "svc-a" "dev" ["latest"] none ⟨none, [], none⟩
      (by simp) indexPanicMsg⟩

/-- strings.HasPrefix(s, pre), decided on the character lists. -/
def stringsHasPre (s pre : String) : Bool :=
  List.isPrefixOf pre.data s.data

/-- strings.TrimPrefix(s, pre): drop pre when it prefixes s, else
return s unchanged. -/
def stringsTrimPre (s pre : String) : String :=
  if stringsHasPre s pre then s.drop pre.length else s

/-- The publish.NewDefault plus Publish invocation recorded on
success: base URL, tag set passed through WithTags, and the repo path
given to Publish. -/
structure PublishCall where
  baseURL : String
  tags : List String
  repoName : String
deriving DecidableEq, Repr

/-- buildAndPublishService (main.go variant): native ko build; after
the digest phase the digest-derived tag, with the sha256 checksum
prefix stripped, is appended to the declared tags before publishing.
The ko build, digest, auth and publish effects are abstracted by
their error slots and the digest value. -/
def buildAndPublishService (serviecName baseURL : String) (tags : List String)
    (newGoErr buildErr digestErr authErr publishErr : Option String)
    (digest : String) : Except String PublishCall :=
  match newGoErr with
  | some e => .error ("build go image: " ++ e)
  | none =>
  match buildErr with
  | some e => .error ("build image: " ++ e)
  | none =>
  match digestErr with
  | some e => .error ("get image digest: " ++ e)
  | none =>
  match authErr with
  | some e => .error ("authenticate to image repo: " ++ e)
  | none =>
  match publishErr with
  | some e => .error ("publish image: " ++ e)
  | none => .ok ⟨baseURL, tags ++ [stringsTrimPre digest "sha256:"], serviecName⟩

/-- buildAndPublishGoService (repo.go variant): same pipeline but the
declared tags are passed to WithTags unchanged; the digest only
reaches the renaming record, appended to the published reference
name. -/
def buildAndPublishGoService (serviceName baseURL ns : String) (tags : List String)
    (newGoErr buildErr digestErr authErr publishErr : Option String)
    (digest refContextName : String) : Except String (PublishCall × Image) :=
  match newGoErr with
  | some e => .error ("build go image: " ++ e)
  | none =>
  match buildErr with
  | some e => .error ("build image: " ++ e)
  | none =>
  match digestErr with
  | some e => .error ("get image digest: " ++ e)
  | none =>
  match authErr with
  | some e => .error ("authenticate to image repo: " ++ e)
  | none =>
  match publishErr with
  | some e => .error ("publish image: " ++ e)
  | none =>
    .ok (⟨baseURL, tags, if ns ≠ "" then ns ++ "/" ++ serviceName else serviceName⟩,
         ⟨"registry.lema.ai/" ++ serviceName, refContextName ++ "@" ++ digest⟩)

/-- C9 counterexample: a successful native Go task on the
registryCommand path (buildAndPublishGoService) publishes only the
declared tags; the digest-derived tag is absent. -/
theorem go_service_publish_missing_digest_tag :
    buildAndPublishGoService "svc-a" "111122223333.dkr.ecr.us-east-1.amazonaws.com"
        "dev" ["v1"] none none none none none "sha256:abc"
        "111122223333.dkr.ecr.us-east-1.amazonaws.com/dev/svc-a" =
      Except.ok
        (⟨"111122223333.dkr.ecr.us-east-1.amazonaws.com", ["v1"], "dev/svc-a"⟩,
         ⟨"registry.lema.ai/svc-a",
          "111122223333.dkr.ecr.us-east-1.amazonaws.com/dev/svc-a@sha256:abc"⟩) ∧
    (["v1"] : List String) ≠ ["v1", "abc"] :=
  ⟨rfl, by decide⟩

/-- C9 as amended: a successful buildAndPublishService publishes the
declared tags plus exactly one digest-derived tag with the sha256
checksum prefix stripped, while a successful buildAndPublishGoService
publishes exactly the declared tags, the digest reaching only the
recorded newReference. -/
theorem native_publish_tag_sets :
    (∀ (serviecName baseURL : String) (tags : List String)
       (e1 e2 e3 e4 e5 : Option String) (digest : String) (call : PublishCall),
       buildAndPublishService serviecName baseURL tags e1 e2 e3 e4 e5 digest =
         Except.ok call →
       call.tags = tags ++ [stringsTrimPre digest "sha256:"] ∧
       (stringsHasPre digest "sha256:" = true →
         call.tags = tags ++ [digest.drop 7])) ∧
    (∀ (serviceName baseURL ns : String) (tags : List String)
       (e1 e2 e3 e4 e5 : Option String) (digest refContextName : String)
       (call : PublishCall) (img : Image),
       buildAndPublishGoService serviceName baseURL ns tags e1 e2 e3 e4 e5
         digest refContextName = Except.ok (call, img) →
       call.tags = tags ∧ img.NewName = refContextName ++ "@" ++ digest) := by
  constructor
  · intro serviecName baseURL tags e1 e2 e3 e4 e5 digest call h
    cases e1 <;> cases e2 <;> cases e3 <;> cases e4 <;> cases e5 <;>
      simp [buildAndPublishService] at h
    have htags : call.tags = tags ++ [stringsTrimPre digest "sha256:"] := by
      rw [← h]
    refine ⟨htags, fun hpre => ?_⟩
    rw [htags]
    unfold stringsTrimPre
    rw [if_pos hpre]
    have hlen : ("sha256:" : String).length = 7 := rfl
    rw [hlen]
  · intro serviceName baseURL ns tags e1 e2 e3 e4 e5 digest refContextName call img h
    cases e1 <;> cases e2 <;> cases e3 <;> cases e4 <;> cases e5 <;>
      simp [buildAndPublishGoService] at h
    obtain ⟨hc, hi⟩ := h
    exact ⟨by rw [← hc], by rw [← hi]⟩

/-- Witness for the amended C9 at a concrete successful run of each
native variant. -/
theorem native_publish_tag_sets_witness :
    ((⟨"reg.example.com", ["v1", "abc"], "svc-a"⟩ : PublishCall).tags =
      ["v1"] ++ [stringsTrimPre "sha256:abc" "sha256:"] ∧
     (⟨"reg.example.com", ["v1", "abc"], "svc-a"⟩ : PublishCall).tags =
      ["v1"] ++ [String.drop "sha256:abc" 7]) ∧
    (⟨"reg.example.com", ["v1"], "dev/svc-a"⟩ : PublishCall).tags = ["v1"] := by
  obtain ⟨h1, h2⟩ := native_publish_tag_sets
  constructor
  · have hok : buildAndPublishService "svc-a" "reg.example.com" ["v1"]
        none none none none none "sha256:abc" =
        Except.ok ⟨"reg.example.com", ["v1", "abc"], "svc-a"⟩ := by
      unfold buildAndPublishService stringsTrimPre
      rw [if_pos (by decide)]
      rfl
    have := h1 "svc-a" "reg.example.com" ["v1"] none none none none none
      "sha256:abc" ⟨"reg.example.com", ["v1", "abc"], "svc-a"⟩ hok
    exact ⟨this.1, this.2 (by decide)⟩
  · exact (h2 "svc-a" "reg.example.com" "dev" ["v1"] none none none none none
      "sha256:abc" "reg.example.com/dev/svc-a"
      ⟨"reg.example.com", ["v1"], "dev/svc-a"⟩
      ⟨"registry.lema.ai/svc-a", "reg.example.com/dev/svc-a@sha256:abc"⟩ rfl).1

/-- Target of a docker service (config.go): service name and build
stage. -/
structure Target where
  name : String
  target : String
deriving DecidableEq, Repr

/-- GoServiceConfig (config.go): name, optional tags, main package
directory and base image. -/
structure GoServiceConfig where
  name : String
  tags : Option (List String)
  main : String
  baseImage : String
deriving DecidableEq, Repr

/-- Modelled from the spec: DockerServiceConfig is consumed by
registryCommand (Dockerfile, TargetsOrder, GetTags) but its struct
declaration is not among the provided sources; per the spec a
ServiceUnit of the external-build variant carries a build file and an
ordered list of build targets. -/
structure DockerServiceConfig where
  dockerfile : String
  targetsOrder : List Target
deriving DecidableEq, Repr

/-- Capacity of the imagesChan result channel in registryCommand: the
number of go services plus the total number of docker build
targets. -/
def imagesChanCapacity (goServices : List GoServiceConfig)
    (dockerServices : List DockerServiceConfig) : Nat :=
  goServices.length + (dockerServices.map (fun s => s.targetsOrder.length)).sum

/-- cobra GetInt on the max-go-routines flag: the declared default 5
is returned when the flag is absent. -/
def maxGoRoutinesFlag (flagValue : Option Int) : Int :=
  flagValue.getD 5

/-- One build-publish task as dispatched by registryCommand: the
renaming records it sends on the result channel while running (a
docker task one per completed build target, a go task at most one)
and the error it finishes with (none on success). -/
structure Task where
  records : List Image
  fails : Option String
deriving DecidableEq, Repr

/-- Scheduler configuration: the errgroup limit (max-go-routines
flag) and the tasks of the run in submission order. -/
structure SchedConfig where
  limit : Nat
  tasks : List Task
deriving DecidableEq, Repr

/-- State of the concurrent phase: tasks not yet admitted by the
errgroup, running tasks paired with how many of their records they
have sent so far, finished tasks in completion order, the buffered
channel contents, and the first-error slot of the errgroup. -/
structure SchedState where
  pending : List Task
  running : List (Task × Nat)
  completed : List Task
  queue : List Image
  firstErr : Option String
deriving DecidableEq, Repr

def initState (cfg : SchedConfig) : SchedState :=
  ⟨cfg.tasks, [], [], [], none⟩

/-- errgroup errOnce: only the first non-nil error is kept. -/
def recordErr (acc : Option String) (e : Option String) : Option String :=
  match acc with
  | some e0 => some e0
  | none => e

/-- Modelled from the spec: small-step semantics of the Work
Scheduler (errgroup.SetLimit plus the buffered channel are external
library code). Go admits a task only while fewer than limit tasks
run; a running task sends its next record to the channel; a task that
has sent all its records finishes, entering the completion order and
the first-error slot. -/
inductive Step (cfg : SchedConfig) : SchedState → SchedState → Prop
  | submit (t : Task) (rest : List Task) (s : SchedState)
      (hp : s.pending = t :: rest)
      (hcap : s.running.length < cfg.limit) :
      Step cfg s ⟨rest, s.running ++ [(t, 0)], s.completed, s.queue, s.firstErr⟩
  | send (t : Task) (k : Nat) (r : Image) (l1 l2 : List (Task × Nat)) (s : SchedState)
      (hr : s.running = l1 ++ (t, k) :: l2)
      (hk : t.records[k]? = some r) :
      Step cfg s ⟨s.pending, l1 ++ (t, k + 1) :: l2, s.completed,
        s.queue ++ [r], s.firstErr⟩
  | finish (t : Task) (k : Nat) (l1 l2 : List (Task × Nat)) (s : SchedState)
      (hr : s.running = l1 ++ (t, k) :: l2)
      (hk : k = t.records.length) :
      Step cfg s ⟨s.pending, l1 ++ l2, s.completed ++ [t], s.queue,
        recordErr s.firstErr t.fails⟩

inductive Reachable (cfg : SchedConfig) : SchedState → Prop
  | init : Reachable cfg (initState cfg)
  | step {s s2 : SchedState} : Reachable cfg s → Step cfg s s2 → Reachable cfg s2

/-- Total number of records the given tasks send when run. -/
def totalRecLen (l : List Task) : Nat :=
  (l.map (fun t => t.records.length)).sum

/-- The inductive invariant of the scheduler. -/
structure SchedInv (cfg : SchedConfig) (s : SchedState) : Prop where
  running_le : s.running.length ≤ cfg.limit
  k_le : ∀ p ∈ s.running, p.2 ≤ p.1.records.length
  perm : (s.completed ++ s.running.map Prod.fst ++ s.pending).Perm cfg.tasks
  queue_ms : (↑s.queue : Multiset Image) =
    ↑(s.completed.flatMap (fun t => t.records)) +
    ((s.running.map (fun p => (↑(p.1.records.take p.2) : Multiset Image))).sum)
  queue_len : s.queue.length = totalRecLen s.completed + (s.running.map Prod.snd).sum
  firstErr_eq : s.firstErr = (s.completed.filterMap (fun t => t.fails)).head?

theorem schedInv_init (cfg : SchedConfig) : SchedInv cfg (initState cfg) := by
  refine ⟨?_, ?_, ?_, ?_, ?_, ?_⟩ <;> simp [initState, totalRecLen]

theorem schedInv_step {cfg : SchedConfig} {s s2 : SchedState}
    (hinv : SchedInv cfg s) (hstep : Step cfg s s2) : SchedInv cfg s2 := by
  cases hstep with
  | submit t rest s hp hcap =>
    refine ⟨?_, ?_, ?_, ?_, ?_, ?_⟩
    · simp only [List.length_append, List.length_cons, List.length_nil]
      omega
    · intro p hp2
      rcases List.mem_append.mp hp2 with h | h
      · exact hinv.k_le p h
      · rw [List.mem_singleton.mp h]
        simp
    · have hold := hinv.perm
      rw [hp] at hold
      simpa [List.map_append, List.append_assoc] using hold
    · have hold := hinv.queue_ms
      simpa [List.map_append] using hold
    · have hold := hinv.queue_len
      simpa [List.map_append] using hold
    · exact hinv.firstErr_eq
  | send t k r l1 l2 s hr hk =>
    have hk_lt : k < t.records.length := (List.getElem?_eq_some_iff.mp hk).1
    have htake : t.records.take (k + 1) = t.records.take k ++ [r] := by
      rw [List.take_succ, hk]
      rfl
    refine ⟨?_, ?_, ?_, ?_, ?_, ?_⟩
    · have hold := hinv.running_le
      rw [hr] at hold
      simpa using hold
    · intro p hp2
      rcases List.mem_append.mp hp2 with h | h
      · exact hinv.k_le p (by rw [hr]; exact List.mem_append.mpr (Or.inl h))
      · rcases List.mem_cons.mp h with h2 | h2
        · rw [h2]
          simpa using hk_lt
        · exact hinv.k_le p
            (by rw [hr]; exact List.mem_append.mpr (Or.inr (List.mem_cons_of_mem _ h2)))
    · have hold := hinv.perm
      rw [hr] at hold
      simpa [List.map_append] using hold
    · have hold := hinv.queue_ms
      rw [hr] at hold
      calc (↑(s.queue ++ [r]) : Multiset Image)
          = ↑s.queue + ↑[r] := by rw [← Multiset.coe_add]
        _ = ↑(s.completed.flatMap (fun t => t.records)) +
            ((l1 ++ (t, k + 1) :: l2).map
              (fun p => (↑(p.1.records.take p.2) : Multiset Image))).sum := by
            rw [hold]
            simp [List.map_append, htake, ← Multiset.coe_add]
            abel
    · have hold := hinv.queue_len
      rw [hr] at hold
      simp only [List.length_append, List.map_append, List.sum_append,
        List.map_cons, List.sum_cons] at hold ⊢
      simp
      omega
    · exact hinv.firstErr_eq
  | finish t k l1 l2 s hr hk =>
    refine ⟨?_, ?_, ?_, ?_, ?_, ?_⟩
    · have hold := hinv.running_le
      rw [hr] at hold
      simp only [List.length_append, List.length_cons] at hold ⊢
      omega
    · intro p hp2
      rcases List.mem_append.mp hp2 with h | h
      · exact hinv.k_le p (by rw [hr]; exact List.mem_append.mpr (Or.inl h))
      · exact hinv.k_le p
          (by rw [hr]; exact List.mem_append.mpr (Or.inr (List.mem_cons_of_mem _ h)))
    · have hold := hinv.perm
      rw [hr] at hold
      refine List.Perm.trans ?_ hold
      have hmid : ((l1 ++ (t, k) :: l2).map Prod.fst).Perm
          (t :: (l1 ++ l2).map Prod.fst) := by
        simp only [List.map_append, List.map_cons]
        exact List.perm_middle
      have heq : (s.completed ++ [t]) ++ (l1 ++ l2).map Prod.fst ++ s.pending =
          s.completed ++ (t :: (l1 ++ l2).map Prod.fst) ++ s.pending := by
        simp [List.append_assoc]
      rw [heq]
      exact (hmid.symm.append_left s.completed).append_right s.pending
    · have hold := hinv.queue_ms
      rw [hr] at hold
      rw [hold]
      subst hk
      simp [List.flatMap_append, List.map_append, ← Multiset.coe_add, List.take_length]
      abel
    · have hold := hinv.queue_len
      rw [hr] at hold
      subst hk
      simp only [totalRecLen, List.map_append, List.sum_append,
        List.map_cons, List.sum_cons] at hold ⊢
      simp
      omega
    · rw [List.filterMap_append]
      rw [hinv.firstErr_eq]
      cases hfm : s.completed.filterMap (fun t => t.fails) with
      | nil =>
        cases hfail : t.fails <;> simp [recordErr, List.filterMap, hfail]
      | cons e es =>
        simp [recordErr]

theorem schedInv_of_reachable {cfg : SchedConfig} {s : SchedState}
    (h : Reachable cfg s) : SchedInv cfg s := by
  induction h with
  | init => exact schedInv_init cfg
  | step h1 h2 ih => exact schedInv_step ih h2

/-- A positive limit rules out deadlock: a reachable state from which
no step is possible has submitted and finished every task. -/
theorem stuck_no_work {cfg : SchedConfig} {s : SchedState}
    (hlim : 0 < cfg.limit) (hreach : Reachable cfg s)
    (hstuck : ∀ s2, ¬ Step cfg s s2) :
    s.pending = [] ∧ s.running = [] := by
  have hinv := schedInv_of_reachable hreach
  have hrun : s.running = [] := by
    cases hrm : s.running with
    | nil => rfl
    | cons p rs =>
      obtain ⟨t, k⟩ := p
      have hkle : k ≤ t.records.length :=
        hinv.k_le (t, k) (by rw [hrm]; exact List.mem_cons_self _ _)
      rcases Nat.lt_or_ge k t.records.length with hlt | hge
      · have hsome : t.records[k]? = some (t.records.get ⟨k, hlt⟩) := by
          rw [List.getElem?_eq_getElem hlt, List.get_eq_getElem]
        exact absurd
          (Step.send t k (t.records.get ⟨k, hlt⟩) [] rs s (by rw [hrm]; rfl) hsome)
          (hstuck _)
      · have hkeq : k = t.records.length := Nat.le_antisymm hkle hge
        exact absurd (Step.finish t k [] rs s (by rw [hrm]; rfl) hkeq) (hstuck _)
  refine ⟨?_, hrun⟩
  cases hp : s.pending with
  | nil => rfl
  | cons t rest =>
    have hcap : s.running.length < cfg.limit := by
      rw [hrun]
      simpa using hlim
    exact absurd (Step.submit t rest s hp hcap) (hstuck _)

theorem snd_sum_le_totalRecLen {l : List (Task × Nat)}
    (h : ∀ p ∈ l, p.2 ≤ p.1.records.length) :
    (l.map Prod.snd).sum ≤ totalRecLen (l.map Prod.fst) := by
  induction l with
  | nil => simp [totalRecLen]
  | cons p ps ih =>
    simp only [totalRecLen, List.map_cons, List.sum_cons, List.map_map] at ih ⊢
    have h1 : p.2 ≤ p.1.records.length := h p (List.mem_cons_self _ _)
    have h2 := ih (fun q hq => h q (List.mem_cons_of_mem _ hq))
    omega

theorem map_one_sum_eq_length {α : Type} (l : List α) :
    (l.map (fun _ => (1 : Nat))).sum = l.length := by
  induction l with
  | nil => rfl
  | cons a rest ih => simp [ih, Nat.add_comm]

theorem forall2_map_sum_le {α β : Type} (f : α → Nat) (g : β → Nat)
    {l1 : List α} {l2 : List β}
    (h : List.Forall₂ (fun a b => f a ≤ g b) l1 l2) :
    (l1.map f).sum ≤ (l2.map g).sum := by
  induction h with
  | nil => simp
  | cons hab _ ih =>
    simp only [List.map_cons, List.sum_cons]
    omega

/-- C5: the errgroup admits at most limit tasks at any instant along
any reachable execution; an admission step can only fire from a state
with a free slot (a saturated pool blocks submission until a task
finishes); with a positive limit no execution gets stuck before every
task has been submitted and finished; and the max-go-routines flag
defaults to 5 when absent. -/
theorem scheduler_concurrency_bounded :
    (∀ (cfg : SchedConfig) (s : SchedState), Reachable cfg s →
      s.running.length ≤ cfg.limit) ∧
    (∀ (cfg : SchedConfig) (s s2 : SchedState), Step cfg s s2 →
      s2.pending ≠ s.pending → s.running.length < cfg.limit) ∧
    (∀ (cfg : SchedConfig) (s : SchedState), 0 < cfg.limit → Reachable cfg s →
      (∀ s2, ¬ Step cfg s s2) → s.pending = [] ∧ s.running = []) ∧
    maxGoRoutinesFlag none = 5 := by
  refine ⟨?_, ?_, ?_, rfl⟩
  · intro cfg s h
    exact (schedInv_of_reachable h).running_le
  · intro cfg s s2 hstep hpend
    cases hstep with
    | submit t rest s hp hcap => exact hcap
    | send t k r l1 l2 s hr hk => exact absurd rfl hpend
    | finish t k l1 l2 s hr hk => exact absurd rfl hpend
  · intro cfg s hlim hreach hstuck
    exact stuck_no_work hlim hreach hstuck

/-- C6: a run with a positive limit completes every submitted task
even when some fail (the completion list is a permutation of the full
task list), and the error slot surfaced by Wait holds exactly the
first failure in completion order. -/
theorem scheduler_completion_first_error (cfg : SchedConfig) (s : SchedState)
    (hlim : 0 < cfg.limit) (hreach : Reachable cfg s)
    (hstuck : ∀ s2, ¬ Step cfg s s2) :
    s.completed.Perm cfg.tasks ∧
    s.firstErr = (s.completed.filterMap (fun t => t.fails)).head? := by
  have hinv := schedInv_of_reachable hreach
  obtain ⟨hpend, hrun⟩ := stuck_no_work hlim hreach hstuck
  have hperm := hinv.perm
  rw [hpend, hrun] at hperm
  simp only [List.map_nil, List.append_nil] at hperm
  exact ⟨hperm, hinv.firstErr_eq⟩

/-- C7: the result channel capacity equals the total unit count, so
the records ever sent never exceed it and no producer blocks on the
queue; and at the end of a run the drained channel holds exactly the
records produced by the finished tasks. -/
theorem result_queue_capacity_and_drain :
    (∀ (goServices : List GoServiceConfig) (dockerServices : List DockerServiceConfig)
       (cfg : SchedConfig) (dTasks gTasks : List Task),
      cfg.tasks = dTasks ++ gTasks →
      List.Forall₂ (fun (t : Task) (svc : DockerServiceConfig) =>
        t.records.length ≤ svc.targetsOrder.length) dTasks dockerServices →
      List.Forall₂ (fun (t : Task) (_ : GoServiceConfig) =>
        t.records.length ≤ 1) gTasks goServices →
      ∀ s, Reachable cfg s →
        s.queue.length ≤ imagesChanCapacity goServices dockerServices) ∧
    (∀ (cfg : SchedConfig) (s : SchedState), 0 < cfg.limit → Reachable cfg s →
      (∀ s2, ¬ Step cfg s s2) →
      s.queue.Perm (s.completed.flatMap (fun t => t.records)) ∧
      s.completed.Perm cfg.tasks) := by
  constructor
  · intro goServices dockerServices cfg dTasks gTasks htasks hd hg s hreach
    have hinv := schedInv_of_reachable hreach
    have hsum_eq : totalRecLen s.completed + totalRecLen (s.running.map Prod.fst) +
        totalRecLen s.pending = totalRecLen cfg.tasks := by
      have h2 := (hinv.perm.map (fun t => t.records.length)).sum_eq
      simp only [totalRecLen, List.map_append, List.sum_append, List.map_map] at h2 ⊢
      omega
    have hk_sum : (s.running.map Prod.snd).sum ≤ totalRecLen (s.running.map Prod.fst) :=
      snd_sum_le_totalRecLen hinv.k_le
    have hlen := hinv.queue_len
    have hdsum : totalRecLen dTasks ≤
        (dockerServices.map (fun svc => svc.targetsOrder.length)).sum :=
      @forall2_map_sum_le Task DockerServiceConfig (fun t => t.records.length)
        (fun svc => svc.targetsOrder.length) dTasks dockerServices hd
    have hgsum : totalRecLen gTasks ≤ goServices.length := by
      have h1 := @forall2_map_sum_le Task GoServiceConfig (fun t => t.records.length)
        (fun _ => 1) gTasks goServices hg
      rw [map_one_sum_eq_length] at h1
      exact h1
    have htot : totalRecLen cfg.tasks =
        totalRecLen dTasks + totalRecLen gTasks := by
      rw [htasks]
      simp [totalRecLen, List.map_append, List.sum_append]
    unfold imagesChanCapacity
    omega
  · intro cfg s hlim hreach hstuck
    have hinv := schedInv_of_reachable hreach
    obtain ⟨hpend, hrun⟩ := stuck_no_work hlim hreach hstuck
    have hq := hinv.queue_ms
    rw [hrun] at hq
    simp only [List.map_nil, List.sum_nil, add_zero] at hq
    have hperm := hinv.perm
    rw [hpend, hrun] at hperm
    simp only [List.map_nil, List.append_nil] at hperm
    exact ⟨Multiset.coe_eq_coe.mp hq, hperm⟩

/-- Record produced by the successful docker task of the witness
scenario. -/
def imgA : Image := ⟨"registry.lema.ai/svc-a", "repo/svc-a@sha256:aaa"⟩

/-- Witness task that succeeds after sending one record. -/
def taskA : Task := ⟨[imgA], none⟩

/-- Witness task that fails before sending anything. -/
def taskB : Task := ⟨[], some "boom"⟩

/-- Witness scheduler configuration: limit 2, two tasks. -/
def witCfg : SchedConfig := ⟨2, [taskA, taskB]⟩

/-- Witness terminal state: both tasks completed, one record queued,
the failure of taskB surfaced. -/
def witFinal : SchedState := ⟨[], [], [taskA, taskB], [imgA], some "boom"⟩

theorem witReachableMid :
    Reachable witCfg ⟨[], [(taskA, 0), (taskB, 0)], [], [], none⟩ := by
  have h0 : Reachable witCfg (initState witCfg) := Reachable.init
  have h1 : Reachable witCfg ⟨[taskB], [(taskA, 0)], [], [], none⟩ :=
    Reachable.step h0 (Step.submit taskA [taskB] _ rfl (by decide))
  exact Reachable.step h1 (Step.submit taskB [] _ rfl (by decide))

theorem witReachable : Reachable witCfg witFinal := by
  have h3 : Reachable witCfg ⟨[], [(taskA, 1), (taskB, 0)], [], [imgA], none⟩ :=
    Reachable.step witReachableMid (Step.send taskA 0 imgA [] [(taskB, 0)] _ rfl rfl)
  have h4 : Reachable witCfg ⟨[], [(taskB, 0)], [taskA], [imgA], none⟩ :=
    Reachable.step h3 (Step.finish taskA 1 [] [(taskB, 0)] _ rfl rfl)
  exact Reachable.step h4 (Step.finish taskB 0 [] [] _ rfl rfl)

theorem witStuck : ∀ s2, ¬ Step witCfg witFinal s2 := by
  intro s2 h
  cases h with
  | submit t rest s hp hcap => simp [witFinal] at hp
  | send t k r l1 l2 s hr hk => simp [witFinal] at hr
  | finish t k l1 l2 s hr hk => simp [witFinal] at hr

/-- Witness for C5: a saturated instant respects the bound, the
terminal state has submitted everything, and the flag default is
5. -/
theorem scheduler_concurrency_bounded_witness :
    (⟨[], [(taskA, 0), (taskB, 0)], [], [], none⟩ : SchedState).running.length ≤
      witCfg.limit ∧
    witFinal.pending = [] ∧ witFinal.running = [] ∧
    maxGoRoutinesFlag none = 5 := by
  obtain ⟨h1, _, h3, h4⟩ := scheduler_concurrency_bounded
  have hterm := h3 witCfg witFinal (by decide) witReachable witStuck
  exact ⟨h1 witCfg _ witReachableMid, hterm.1, hterm.2, h4⟩

/-- Witness for C6 at the two-task scenario: both tasks complete and
the single failure is surfaced. -/
theorem scheduler_completion_first_error_witness :
    witFinal.completed.Perm witCfg.tasks ∧
    witFinal.firstErr = (witFinal.completed.filterMap (fun t => t.fails)).head? :=
  scheduler_completion_first_error witCfg witFinal (by decide) witReachable witStuck

/-- Go service of the witness configuration. -/
def witGoServices : List GoServiceConfig :=
  [⟨"svc-b", none, "./cmd/svc-b", "cgr.dev/chainguard/busybox:latest"⟩]

/-- Docker service of the witness configuration, one build target. -/
def witDockerServices : List DockerServiceConfig :=
  [⟨"Dockerfile", [⟨"svc-a", ""⟩]⟩]

/-- Witness for C7: the queue of the witness run stays within the
channel capacity and the terminal queue is exactly the records of the
completed tasks. -/
theorem result_queue_capacity_and_drain_witness :
    witFinal.queue.length ≤ imagesChanCapacity witGoServices witDockerServices ∧
    witFinal.queue.Perm (witFinal.completed.flatMap (fun t => t.records)) ∧
    witFinal.completed.Perm witCfg.tasks := by
  obtain ⟨h1, h2⟩ := result_queue_capacity_and_drain
  have hterm := h2 witCfg witFinal (by decide) witReachable witStuck
  refine ⟨h1 witGoServices witDockerServices witCfg [taskA] [taskB] rfl ?_ ?_
    witFinal witReachable, hterm.1, hterm.2⟩
  · exact List.Forall₂.cons (by decide) List.Forall₂.nil
  · exact List.Forall₂.cons (by decide) List.Forall₂.nil

end Ippon
